import Mathlib

/-!
Verification development for the flame-graph diff core (`src/app.py`).

The Python source is shallowly embedded: strings are `List Char` (ASCII; the
character classes of the regexes are modelled over ASCII, which covers every
input this development evaluates), each `re.sub` call is a left-to-right scan
with a hand-translated matcher for its concrete pattern, Python `int` overflow
does not exist and counts are `Int`, and float percentages are modelled by
exact rationals with round-half-to-even at two decimals.
-/

/-- Python whitespace (`str.strip`, `\s`), ASCII part. -/
def isPySpace (c : Char) : Bool :=
  c == ' ' || c == '\t' || c == '\n' || c == '\r' || c == '\x0b' || c == '\x0c'

/-- ASCII letter, for the `[a-zA-Z]` class. -/
def isAsciiAlpha (c : Char) : Bool :=
  ('a' ≤ c && c ≤ 'z') || ('A' ≤ c && c ≤ 'Z')

/-- The `[a-f0-9]` class of the native-library patterns. -/
def isLowerHex (c : Char) : Bool :=
  ('a' ≤ c && c ≤ 'f') || c.isDigit

/-- The `\w` class (ASCII part). -/
def isWordChar (c : Char) : Bool :=
  isAsciiAlpha c || c.isDigit || c == '_'

/-- Python `str.strip()`: drop leading and trailing whitespace. -/
def pyStrip (l : List Char) : List Char :=
  ((l.dropWhile isPySpace).reverse.dropWhile isPySpace).reverse

/-- Python `str.split(sep)` for a one-character separator: always returns a
nonempty list of (possibly empty) pieces. -/
def splitOnChar (sep : Char) : List Char → List (List Char)
  | [] => [[]]
  | c :: cs =>
    match splitOnChar sep cs with
    | [] => [[]]
    | r :: rs => if c = sep then [] :: r :: rs else (c :: r) :: rs

/-- Python `sep.join(pieces)` for a one-character separator. -/
def joinSep (sep : Char) : List (List Char) → List Char
  | [] => []
  | [p] => p
  | p :: q :: rs => p ++ sep :: joinSep sep (q :: rs)

/-- Python `needle in hay` (substring test). -/
def containsSub (n : List Char) : List Char → Bool
  | [] => n.isEmpty
  | c :: cs => n.isPrefixOf (c :: cs) || containsSub n cs

/-- `re.sub(r'\s*\[[a-zA-Z]\]\s*$', '', frame)`: remove one trailing
bracketed single-letter annotation together with the whitespace around it;
if the string does not end that way it is returned unchanged. -/
def stripAnn (l : List Char) : List Char :=
  match l.reverse.dropWhile isPySpace with
  | ']' :: a :: '[' :: rest =>
    if isAsciiAlpha a then (rest.dropWhile isPySpace).reverse else l
  | _ => l

/-- `re.sub(r'_+\s*$', '', s)`: remove a trailing run of underscores (and the
whitespace after it); otherwise the string is unchanged. -/
def stripUnd (l : List Char) : List Char :=
  match l.reverse.dropWhile isPySpace with
  | '_' :: rest => (('_' :: rest).dropWhile (fun c => c == '_')).reverse
  | _ => l

/-- Global `re.sub` driver, fuelled so that it reduces in the kernel: scan
left to right; at each position the matcher either yields a replacement and
the number of characters consumed (always positive for the patterns below) or
fails, in which case one character is copied. Matched text is not rescanned,
exactly as in `re.sub`. One unit of fuel covers at least one character, so
fuel `l.length` is never exhausted. -/
def gsubF (m : List Char → Option (List Char × Nat)) : Nat → List Char → List Char
  | _, [] => []
  | 0, l => l
  | fuel + 1, c :: cs =>
    match m (c :: cs) with
    | some (rep, k) => rep ++ gsubF m fuel (List.drop (max k 1) (c :: cs))
    | none => c :: gsubF m fuel cs

/-- Global `re.sub` with the matcher `m`. -/
def gsub (m : List Char → Option (List Char × Nat)) (l : List Char) : List Char :=
  gsubF m l.length l

/-- One `[^-]+-` unit: a maximal nonempty dash-free run followed by a dash
(the greedy class cannot cross the dash, so the regex is deterministic here). -/
def takeSeg (l : List Char) : Option (List Char) :=
  let k := (l.takeWhile (fun c => !(c == '-'))).length
  if k = 0 then none
  else
    match l.drop k with
    | '-' :: rest => some rest
    | _ => none

/-- `n` repetitions of `[^-]+-`. -/
def takeSegs : Nat → List Char → Option (List Char)
  | 0, l => some l
  | n + 1, l =>
    match takeSeg l with
    | none => none
    | some r => takeSegs n r

/-- Matcher for `snappy-[^-]+-[^-]+-[^-]+-[^-]+-[^-]+-[^-]+-libsnappyjava\.so`
with replacement `snappy-*-libsnappyjava.so`. -/
def snappyTry (l : List Char) : Option (List Char × Nat) :=
  if (("snappy-").data).isPrefixOf l then
    match takeSegs 6 (l.drop 7) with
    | none => none
    | some r =>
      if (("libsnappyjava.so").data).isPrefixOf r then
        some ((("snappy-*-libsnappyjava.so").data), l.length - r.length + 16)
      else none
  else none

/-- One `[a-f0-9]+-` unit (maximal nonempty run, then a dash). -/
def hexSeg (l : List Char) : Option (List Char) :=
  let k := (l.takeWhile isLowerHex).length
  if k = 0 then none
  else
    match l.drop k with
    | '-' :: rest => some rest
    | _ => none

/-- One `\d+-` unit. -/
def digitSeg (l : List Char) : Option (List Char) :=
  let k := (l.takeWhile Char.isDigit).length
  if k = 0 then none
  else
    match l.drop k with
    | '-' :: rest => some rest
    | _ => none

/-- One `\d+\.` unit. -/
def digitRunDot (l : List Char) : Option (List Char) :=
  let k := (l.takeWhile Char.isDigit).length
  if k = 0 then none
  else
    match l.drop k with
    | '.' :: rest => some rest
    | _ => none

/-- The optional semver group `\d+\.\d+\.\d+`. -/
def semverTry (l : List Char) : Option (List Char) :=
  match digitRunDot l with
  | none => none
  | some r1 =>
    match digitRunDot r1 with
    | none => none
    | some r2 =>
      let k := (r2.takeWhile Char.isDigit).length
      if k = 0 then none else some (r2.drop k)

/-- Greedy `([^/]+\.so)` capture: the longest slash-free stretch ending in
`.so`; returns the captured text and the remainder of the input. -/
def soCap (l : List Char) : Option (List Char × List Char) :=
  let R := l.takeWhile (fun c => !(c == '/'))
  match ((List.range R.length).filter
      (fun i => decide (1 ≤ i) && ((".so").data).isPrefixOf (R.drop i))).getLast? with
  | none => none
  | some i => some (R.take (i + 3), l.drop (i + 3))

/-- The tail `[a-f0-9]+-\d+-[a-f0-9]+-[a-f0-9]+-[a-f0-9]+-([^/]+\.so)` of the
generic native-library pattern; returns the capture and the remainder. -/
def libTail (l : List Char) : Option (List Char × List Char) :=
  match hexSeg l with
  | none => none
  | some r1 =>
    match digitSeg r1 with
    | none => none
    | some r2 =>
      match hexSeg r2 with
      | none => none
      | some r3 =>
        match hexSeg r3 with
        | none => none
        | some r4 =>
          match hexSeg r4 with
          | none => none
          | some r5 => soCap r5

/-- Matcher for
`(lib\w+)-(\d+\.\d+\.\d+)?-[a-f0-9]+-\d+-[a-f0-9]+-[a-f0-9]+-[a-f0-9]+-([^/]+\.so)`
with replacement `\1-*-\3`; the semver branch is attempted before the
empty branch, as the backtracking engine does. -/
def libTry (l : List Char) : Option (List Char × Nat) :=
  if (("lib").data).isPrefixOf l then
    let w := (l.drop 3).takeWhile isWordChar
    if w.length = 0 then none
    else
      match (l.drop 3).drop w.length with
      | '-' :: rest1 =>
        let withVer : Option (List Char × List Char) :=
          match semverTry rest1 with
          | some rs =>
            match rs with
            | '-' :: rest2 => libTail rest2
            | _ => none
          | none => none
        let chosen : Option (List Char × List Char) :=
          match withVer with
          | some x => some x
          | none =>
            match rest1 with
            | '-' :: rest2 => libTail rest2
            | _ => none
        match chosen with
        | none => none
        | some (g3, rest) =>
          some ((("lib").data) ++ w ++ (("-*-").data) ++ g3, l.length - rest.length)
      | _ => none
  else none

/-- Maximal `[a-f0-9]{3,}` run with lookahead `(?=\$|\.|$)`; returns the run
length (the lookahead consumes nothing). -/
def hexRunLook (rest : List Char) : Option Nat :=
  let k := (rest.takeWhile isLowerHex).length
  if 3 ≤ k then
    match rest.drop k with
    | [] => some k
    | '$' :: _ => some k
    | '.' :: _ => some k
    | _ => none
  else none

/-- Matcher for `\$\$[a-f0-9]{3,}(?=\$|\.|$)` with replacement `$$*`. -/
def dollar2Try (l : List Char) : Option (List Char × Nat) :=
  match l with
  | '$' :: '$' :: rest => (hexRunLook rest).map (fun k => ((("$$*").data), k + 2))
  | _ => none

/-- Matcher for `\$[a-f0-9]{3,}(?=\$|\.|$)` with replacement `$*`. -/
def dollar1Try (l : List Char) : Option (List Char × Nat) :=
  match l with
  | '$' :: rest => (hexRunLook rest).map (fun k => ((("$*").data), k + 1))
  | _ => none

/-- Matcher for `\d+` with replacement `*`. -/
def digitTry (l : List Char) : Option (List Char × Nat) :=
  let k := (l.takeWhile Char.isDigit).length
  if k = 0 then none else some ([ '*' ], k)

/-- `FlameGraphParser.normalize_stack_trace` restricted to one frame:
annotation and underscore stripping, the two native-library rewrites, the
double- then single-dollar hex collapse, and the final digit collapse. -/
def normFrame (frame : List Char) : List Char :=
  let c1 := stripAnn frame
  let c2 := pyStrip (stripUnd c1)
  let n1 := if containsSub (("libsnappyjava.so").data) c2 then gsub snappyTry c2 else c2
  let n2 := gsub libTry n1
  let n3 := gsub dollar2Try n2
  let n4 := gsub dollar1Try n3
  gsub digitTry n4

/-- `FlameGraphParser.normalize_stack_trace`: split the stack on `;`,
normalize each frame, and rejoin. -/
def normalize_stack_trace (s : String) : String :=
  ⟨joinSep ';' ((splitOnChar ';' s.data).map normFrame)⟩

/-- Python `line.rsplit(' ', 1)` when the line contains a space: split at the
last space character. Returns `none` when there is no space (Python then
returns a one-element list, which `parse_file` skips). -/
def rsplit1 (sep : Char) : List Char → Option (List Char × List Char)
  | [] => none
  | c :: cs =>
    match rsplit1 sep cs with
    | some (a, b) => some (c :: a, b)
    | none => if c = sep then some ([], cs) else none

/-- Digit-and-underscore tail of a Python integer literal: after a first
digit, underscores may appear only between digits. -/
def pyIntGo (acc : Nat) : List Char → Option Nat
  | [] => some acc
  | '_' :: c :: cs =>
    if c.isDigit then pyIntGo (acc * 10 + (c.toNat - 48)) cs else none
  | '_' :: [] => none
  | c :: cs =>
    if c.isDigit then pyIntGo (acc * 10 + (c.toNat - 48)) cs else none

/-- Unsigned part of Python `int(·)`: a nonempty digit string with optional
single underscores between digits. -/
def pyIntCore : List Char → Option Nat
  | [] => none
  | c :: cs => if c.isDigit then pyIntGo (c.toNat - 48) cs else none

/-- Python `int(s)` on text (ASCII): surrounding whitespace is ignored and a
single leading `+` or `-` sign is accepted — so `int("-5")` succeeds. -/
def pyInt (l : List Char) : Option Int :=
  match pyStrip l with
  | '+' :: r => (pyIntCore r).map (fun n => (n : Int))
  | '-' :: r => (pyIntCore r).map (fun n => -(n : Int))
  | r => (pyIntCore r).map (fun n => (n : Int))

/-- One line of `FlameGraphParser.parse_file`: `none` when the line is blank,
has no space, or its count segment does not parse; otherwise the normalized
stack signature and the count. -/
def parseLineO (line : List Char) : Option (String × Int) :=
  if (pyStrip line).isEmpty then none
  else
    match rsplit1 ' ' line with
    | none => none
    | some (a, b) =>
      match pyInt (pyStrip b) with
      | none => none
      | some k => some (normalize_stack_trace ⟨pyStrip a⟩, k)

/-- `stack_counts[normalized_stack] += count` on an insertion-ordered
association list (Python dicts preserve insertion order). -/
def addCount : List (String × Int) → String → Int → List (String × Int)
  | [], s, k => [(s, k)]
  | (key, v) :: rest, s, k =>
    if key = s then (key, v + k) :: rest else (key, v) :: addCount rest s k

/-- The loop body of `parse_file`: malformed lines leave the state unchanged. -/
def parseStep (st : List (String × Int) × Int) (line : List Char) :
    List (String × Int) × Int :=
  match parseLineO line with
  | none => st
  | some (sig, k) => (addCount st.1 sig k, st.2 + k)

/-- `file_content.strip().split('\n')`. -/
def pyLines (content : String) : List (List Char) :=
  splitOnChar '\n' (pyStrip content.data)

/-- `FlameGraphParser.parse_file`: fold the per-line step over the lines,
returning the frequency table and the total sample count. -/
def parse_file (content : String) : List (String × Int) × Int :=
  (pyLines content).foldl parseStep ([], 0)

/-- Round-half-to-even to an integer, Python's `round` on exact values. -/
def pyRoundEven (q : ℚ) : ℤ :=
  let n := ⌊q⌋
  let r := q - (n : ℚ)
  if r < 1 / 2 then n
  else if 1 / 2 < r then n + 1
  else if n % 2 = 0 then n else n + 1

/-- Python `round(x, 2)`, on the exact-rational model of the floats. -/
def pyRound2 (q : ℚ) : ℚ :=
  (pyRoundEven (q * 100) : ℚ) / 100

/-- One row of `calculate_diff` (the `stack_info` dict). -/
structure StackInfo where
  stack : String
  old_count : Int
  new_count : Int
  old_percent : ℚ
  new_percent : ℚ
  diff_count : Int
  diff_percent : ℚ
deriving DecidableEq, Repr

/-- The `summary` part of the diff result. -/
structure DiffSummary where
  old_total : Int
  new_total : Int
  total_change : Int
  total_change_percent : ℚ
deriving DecidableEq, Repr

/-- The five category lists plus the summary. -/
structure DiffResult where
  added : List StackInfo
  removed : List StackInfo
  increased : List StackInfo
  decreased : List StackInfo
  unchanged : List StackInfo
  summary : DiffSummary
deriving DecidableEq, Repr

/-- The five category names of `calculate_diff`. -/
inductive DiffCat
  | added
  | removed
  | increased
  | decreased
  | unchanged
deriving DecidableEq, Repr

/-- `dict.get(stack, 0)` on the association-list table (first binding wins,
as in a dict, where keys are unique anyway). -/
def lookupD (t : List (String × Int)) (s : String) : Int :=
  match t.find? (fun kv => kv.1 == s) with
  | some kv => kv.2
  | none => 0

/-- The keys of a table, in order. -/
def keyList (t : List (String × Int)) : List String := t.map (fun kv => kv.1)

/-- `set(old.keys()) | set(new.keys())`, as a duplicate-free list. -/
def allStackList (o n : List (String × Int)) : List String :=
  (keyList o ++ keyList n).dedup

/-- The `if/elif` classification chain of `calculate_diff`, on the two counts
(`diff_count` is `new - old`). -/
def diffClass (oc nc : Int) : DiffCat :=
  if oc = 0 ∧ 0 < nc then .added
  else if 0 < oc ∧ nc = 0 then .removed
  else if 0 < nc - oc then .increased
  else if nc - oc < 0 then .decreased
  else .unchanged

/-- The `stack_info` row built for one signature. -/
def mkInfo (o n : List (String × Int)) (ot nt : Int) (s : String) : StackInfo :=
  let oc := lookupD o s
  let nc := lookupD n s
  let opRaw : ℚ := if 0 < ot then (oc : ℚ) / (ot : ℚ) * 100 else 0
  let npRaw : ℚ := if 0 < nt then (nc : ℚ) / (nt : ℚ) * 100 else 0
  { stack := s
    old_count := oc
    new_count := nc
    old_percent := pyRound2 opRaw
    new_percent := pyRound2 npRaw
    diff_count := nc - oc
    diff_percent := pyRound2 (npRaw - opRaw) }

/-- Sort key relation of `results[category].sort(key=lambda x:
abs(x['diff_percent']), reverse=True)`: descending absolute rounded delta. -/
def infoGe (a b : StackInfo) : Prop := |b.diff_percent| ≤ |a.diff_percent|

instance : DecidableRel infoGe := fun a b => by
  unfold infoGe; infer_instance

instance : IsTotal StackInfo infoGe :=
  ⟨fun a b => (le_total |b.diff_percent| |a.diff_percent|).imp id id⟩

instance : IsTrans StackInfo infoGe :=
  ⟨fun _ _ _ h1 h2 => le_trans h2 h1⟩

/-- The in-place sort of the four changed categories. -/
def sortInfos (l : List StackInfo) : List StackInfo := List.insertionSort infoGe l

/-- `FlameGraphDiffer.calculate_diff`: classify every signature of the union
of the key sets, sort the four changed categories by descending absolute
percentage delta, and build the summary. -/
def calculate_diff (o n : List (String × Int)) (ot nt : Int) : DiffResult :=
  let infos := (allStackList o n).map (mkInfo o n ot nt)
  { added := sortInfos (infos.filter (fun i => diffClass i.old_count i.new_count == .added))
    removed := sortInfos (infos.filter (fun i => diffClass i.old_count i.new_count == .removed))
    increased := sortInfos (infos.filter (fun i => diffClass i.old_count i.new_count == .increased))
    decreased := sortInfos (infos.filter (fun i => diffClass i.old_count i.new_count == .decreased))
    unchanged := infos.filter (fun i => diffClass i.old_count i.new_count == .unchanged)
    summary :=
      { old_total := ot
        new_total := nt
        total_change := nt - ot
        total_change_percent :=
          if 0 < ot then ((nt : ℚ) - (ot : ℚ)) / (ot : ℚ) * 100 else 0 } }

/-- Leaf identifier of a signature: last `;`-delimited component, then its
last `/`-delimited component when a slash is present (lines 231–233 of the
source). -/
def leafOf (s : String) : String :=
  let lastSemi := (splitOnChar ';' s.data).getLastD []
  if lastSemi.contains '/' then ⟨(splitOnChar '/' lastSemi).getLastD []⟩
  else ⟨lastSemi⟩

/-- Building a Python `set` by repeated insertion, modelled as a
first-seen-order duplicate-free list. -/
def setInsert (l : List String) (x : String) : List String :=
  if x ∈ l then l else l ++ [x]

/-- The set of leaf identifiers of a category's records. -/
def methodSet (recs : List StackInfo) : List String :=
  recs.foldl (fun acc i => setInsert acc (leafOf i.stack)) []

/-- One entry of the `examples` list of the debug report. -/
structure CorrExample where
  method : String
  added_example : String
  removed_example : String
deriving DecidableEq, Repr

/-- The payload of the `/api/debug-stacks` response. -/
structure CorrReport where
  common_methods_count : Nat
  common_methods : List String
  examples : List CorrExample
  total_added : Nat
  total_removed : Nat
  total_increased : Nat
  total_decreased : Nat
deriving DecidableEq, Repr

/-- One paired example: the first added and first removed record whose
signature contains the method as a substring (the source builds the full
filtered lists and takes element 0 of each when both are nonempty). -/
def mkExample (added removed : List StackInfo) (m : String) : Option CorrExample :=
  match added.filter (fun i => containsSub m.data i.stack.data),
      removed.filter (fun i => containsSub m.data i.stack.data) with
  | a :: _, b :: _ => some ⟨m, a.stack, b.stack⟩
  | _, _ => none

/-- The correlation analysis of `debug_stacks` (source lines 226–271), as a
function of a previously computed diff result. -/
def debug_stacks (dr : DiffResult) : CorrReport :=
  let A := methodSet dr.added
  let B := methodSet dr.removed
  let common := A.filter (fun m => decide (m ∈ B))
  { common_methods_count := common.length
    common_methods := common.take 10
    examples := (common.take 5).filterMap (mkExample dr.added dr.removed)
    total_added := dr.added.length
    total_removed := dr.removed.length
    total_increased := dr.increased.length
    total_decreased := dr.decreased.length }
/-- C8: the documented snappy native-library frame collapses to the wildcard
form. -/
theorem snappy_scenario_normalizes :
    normalize_stack_trace "snappy-1.1.4-abc123-1-de45-f-6789-libsnappyjava.so" =
      "snappy-*-libsnappyjava.so" := by
  decide

/-- C3 counterexample: normalization is not idempotent — a trailing underscore
hides a bracketed annotation from the first pass, and the second pass then
strips it. -/
theorem normalize_not_idempotent :
    normalize_stack_trace (normalize_stack_trace "foo [j]_") ≠
      normalize_stack_trace "foo [j]_" := by
  decide

/-- C4 counterexample: a line with a negative count is not skipped; the value
`-5` is stored in the table and the total is `-5`. -/
theorem negative_count_accepted :
    (parse_file "a;b -5").1 = [("a;b", -5)] ∧ (parse_file "a;b -5").2 = -5 := by
  constructor
  · decide
  · decide

/-- C5 counterexample: a tab-separated line contains no space character, so
the parser skips it instead of splitting at the tab. -/
theorem tab_line_skipped :
    parse_file "a;b\t5" = ([], 0) := by
  decide

/-- Sum of the values of a frequency table. -/
def sumVals (t : List (String × Int)) : Int := (t.map (fun kv => kv.2)).sum

/-- A line the spec calls well formed: blank (skipped) or parseable. -/
def lineOk (l : List Char) : Prop := (pyStrip l).isEmpty ∨ (parseLineO l).isSome

instance : DecidablePred lineOk := fun l => by
  unfold lineOk
  exact inferInstance

/-- The count parsed from a line, when the line parses, is non-negative. -/
def lineCountOk (l : List Char) : Prop :=
  0 ≤ ((parseLineO l).map (fun p => p.2)).getD 0

instance : DecidablePred lineCountOk := fun l => by
  unfold lineCountOk
  exact inferInstance

theorem sumVals_addCount (t : List (String × Int)) (s : String) (k : Int) :
    sumVals (addCount t s k) = sumVals t + k := by
  induction t with
  | nil => simp [addCount, sumVals]
  | cons kv rest ih =>
    by_cases h : kv.1 = s
    · simp only [addCount, if_pos h, sumVals, List.map_cons, List.sum_cons]
      ring
    · cases kv with
      | mk key v =>
        simp only at h
        simp only [addCount, if_neg h, sumVals, List.map_cons, List.sum_cons] at ih ⊢
        rw [ih]
        ring

theorem sumVals_foldl (lines : List (List Char)) :
    ∀ st : List (String × Int) × Int, sumVals st.1 = st.2 →
      sumVals ((List.foldl parseStep st lines).1) = (List.foldl parseStep st lines).2 := by
  induction lines with
  | nil => intro st h; exact h
  | cons l ls ih =>
    intro st h
    simp only [List.foldl_cons]
    apply ih
    unfold parseStep
    cases hp : parseLineO l with
    | none => exact h
    | some v => simp [sumVals_addCount, h]

/-- C2: on inputs whose lines are all well formed, the table's values sum to
the returned total (in fact this conservation holds for every input, since a
skipped line contributes to neither side). -/
theorem parse_conserves_total (content : String)
    (h : ∀ l ∈ pyLines content, lineOk l) :
    sumVals (parse_file content).1 = (parse_file content).2 := by
  have _ := h
  exact sumVals_foldl (pyLines content) ([], 0) (by simp [sumVals])

theorem parse_conserves_total_witness :
    (∀ l ∈ pyLines "a;b 2\nc 3", lineOk l) ∧
      sumVals (parse_file "a;b 2\nc 3").1 = (parse_file "a;b 2\nc 3").2 :=
  ⟨by decide, parse_conserves_total "a;b 2\nc 3" (by decide)⟩

theorem addCount_nonneg (t : List (String × Int)) (s : String) (k : Int)
    (ht : ∀ kv ∈ t, 0 ≤ kv.2) (hk : 0 ≤ k) :
    ∀ kv ∈ addCount t s k, 0 ≤ kv.2 := by
  induction t with
  | nil =>
    intro kv hkv
    simp only [addCount, List.mem_singleton] at hkv
    subst hkv
    exact hk
  | cons kv0 rest ih =>
    intro kv hkv
    obtain ⟨key, v⟩ := kv0
    by_cases h : key = s
    · simp only [addCount, if_pos h] at hkv
      rw [List.mem_cons] at hkv
      rcases hkv with h1 | h2
      · subst h1
        have hv : 0 ≤ v := ht (key, v) (by simp)
        exact add_nonneg hv hk
      · exact ht kv (List.mem_cons_of_mem _ h2)
    · simp only [addCount, if_neg h] at hkv
      rw [List.mem_cons] at hkv
      rcases hkv with h1 | h2
      · subst h1
        exact ht (key, v) (by simp)
      · exact ih (fun kv h => ht kv (List.mem_cons_of_mem _ h)) kv h2

theorem parseStep_skip (st : List (String × Int) × Int) (l : List Char)
    (h : parseLineO l = none) : parseStep st l = st := by
  unfold parseStep
  rw [h]

theorem foldl_nonneg (lines : List (List Char)) :
    ∀ st : List (String × Int) × Int,
      (∀ l ∈ lines, lineCountOk l) →
      (∀ kv ∈ st.1, 0 ≤ kv.2) →
      ∀ kv ∈ (List.foldl parseStep st lines).1, 0 ≤ kv.2 := by
  induction lines with
  | nil =>
    intro st _ hst
    exact hst
  | cons l ls ih =>
    intro st h hst
    simp only [List.foldl_cons]
    apply ih
    · intro l' hl'
      exact h l' (List.mem_cons_of_mem _ hl')
    · unfold parseStep
      cases hp : parseLineO l with
      | none => exact hst
      | some v =>
        have hk : 0 ≤ v.2 := by
          have := h l (List.mem_cons_self _ _)
          unfold lineCountOk at this
          rw [hp] at this
          simpa using this
        exact addCount_nonneg st.1 v.1 v.2 hst hk

/-- C4 (amended): the count segment parses with Python `int`, which accepts
an optional sign, so a negative count such as `a;b -5` is accepted rather
than skipped; a line whose segment does not parse is skipped and contributes
nothing, and whenever every parsed count is non-negative, every value stored
in the frequency table is non-negative. -/
theorem nonneg_counts_give_nonneg_values (content : String)
    (h : ∀ l ∈ pyLines content, lineCountOk l) :
    (∀ st l, parseLineO l = none → parseStep st l = st) ∧
      ∀ kv ∈ (parse_file content).1, 0 ≤ kv.2 :=
  ⟨fun st l hl => parseStep_skip st l hl,
    foldl_nonneg (pyLines content) ([], 0) h (by simp)⟩

theorem nonneg_counts_witness :
    (∀ l ∈ pyLines "a;b 2", lineCountOk l) ∧
      ∀ kv ∈ (parse_file "a;b 2").1, 0 ≤ kv.2 :=
  ⟨by decide, (nonneg_counts_give_nonneg_values "a;b 2" (by decide)).2⟩

theorem rsplit1_eq_none_iff (sep : Char) :
    ∀ l : List Char, rsplit1 sep l = none ↔ sep ∉ l := by
  intro l
  induction l with
  | nil => simp [rsplit1]
  | cons c cs ih =>
    simp only [rsplit1]
    cases hr : rsplit1 sep cs with
    | some p =>
      have : sep ∈ cs := by
        by_contra hmem
        rw [ih.mpr hmem] at hr
        exact Option.noConfusion hr
      simp [this]
    | none =>
      have hmem : sep ∉ cs := ih.mp hr
      by_cases hc : c = sep
      · simp [hc]
      · rw [if_neg hc]
        simp only [List.mem_cons]
        constructor
        · intro _ h
          exact h.elim (fun h => hc h.symm) hmem
        · intro _
          trivial

theorem rsplit1_char (l : List Char) :
    ∀ a b : List Char, rsplit1 ' ' l = some (a, b) ↔ (l = a ++ ' ' :: b ∧ ' ' ∉ b) := by
  induction l with
  | nil =>
    intro a b
    constructor
    · intro h
      exact Option.noConfusion h
    · rintro ⟨h, -⟩
      exact absurd h (by simp)
  | cons c cs ih =>
    intro a b
    simp only [rsplit1]
    cases hr : rsplit1 ' ' cs with
    | some p =>
      obtain ⟨a', b'⟩ := p
      obtain ⟨hcs, hnb'⟩ := (ih a' b').mp hr
      simp only [Option.some.injEq, Prod.mk.injEq]
      constructor
      · rintro ⟨ha, hb⟩
        subst ha
        subst hb
        subst hcs
        exact ⟨by simp, hnb'⟩
      · rintro ⟨heq, hnb⟩
        cases a with
        | nil =>
          simp only [List.nil_append, List.cons.injEq] at heq
          obtain ⟨-, hcsb⟩ := heq
          subst hcsb
          have hms : ' ' ∈ cs := by
            by_contra hmem
            rw [(rsplit1_eq_none_iff ' ' cs).mpr hmem] at hr
            exact Option.noConfusion hr
          exact absurd hms hnb
        | cons c0 a0 =>
          simp only [List.cons_append, List.cons.injEq] at heq
          obtain ⟨hc0, hcseq⟩ := heq
          have h2 : rsplit1 ' ' cs = some (a0, b) := (ih a0 b).mpr ⟨hcseq, hnb⟩
          rw [hr] at h2
          injection h2 with h3
          injection h3 with ha0 hb0
          exact ⟨by rw [hc0, ha0], hb0⟩
    | none =>
      have hnone : ' ' ∉ cs := (rsplit1_eq_none_iff ' ' cs).mp hr
      by_cases hc : c = ' '
      · rw [if_pos hc]
        simp only [Option.some.injEq, Prod.mk.injEq]
        constructor
        · rintro ⟨ha, hb⟩
          subst ha
          subst hb
          subst hc
          exact ⟨by simp, hnone⟩
        · rintro ⟨heq, hnb⟩
          cases a with
          | nil =>
            simp only [List.nil_append, List.cons.injEq] at heq
            exact ⟨rfl, heq.2⟩
          | cons c0 a0 =>
            simp only [List.cons_append, List.cons.injEq] at heq
            have hms : ' ' ∈ cs := by
              rw [heq.2]
              simp
            exact absurd hms hnone
      · rw [if_neg hc]
        constructor
        · intro h
          exact Option.noConfusion h
        · rintro ⟨heq, hnb⟩
          cases a with
          | nil =>
            simp only [List.nil_append, List.cons.injEq] at heq
            exact absurd heq.1 hc
          | cons c0 a0 =>
            simp only [List.cons_append, List.cons.injEq] at heq
            have hms : ' ' ∈ cs := by
              rw [heq.2]
              simp
            exact absurd hms hnone

/-- C5 (amended): the parser splits a line at the last occurrence of the
space character only — the split it computes is the unique one whose right
part is space-free — and a line containing no space at all (such as a
tab-separated `a;b\t5`) is skipped as malformed. -/
theorem last_space_split :
    (∀ l a b : List Char, rsplit1 ' ' l = some (a, b) ↔ (l = a ++ ' ' :: b ∧ ' ' ∉ b))
      ∧ ∀ l : List Char, ' ' ∉ l → parseLineO l = none := by
  constructor
  · exact fun l => rsplit1_char l
  · intro l h
    unfold parseLineO
    rw [(rsplit1_eq_none_iff ' ' l).mpr h]
    by_cases hb : (pyStrip l).isEmpty
    · rw [if_pos hb]
    · rw [if_neg hb]

theorem last_space_split_witness :
    ¬(' ' ∈ ("a;b\t5").data) ∧ parseLineO (("a;b\t5").data) = none :=
  ⟨by decide, last_space_split.2 (("a;b\t5").data) (by decide)⟩

theorem foldl_filter_parseStep (lines : List (List Char)) :
    ∀ st : List (String × Int) × Int,
      List.foldl parseStep st lines =
        List.foldl parseStep st (lines.filter (fun l => (parseLineO l).isSome)) := by
  induction lines with
  | nil => intro st; rfl
  | cons l ls ih =>
    intro st
    simp only [List.foldl_cons, List.filter_cons]
    cases hp : parseLineO l with
    | none =>
      simp only [hp, Option.isSome_none, Bool.false_eq_true, if_false]
      rw [parseStep_skip st l hp]
      exact ih st
    | some v =>
      simp only [hp, Option.isSome_some, if_true, List.foldl_cons]
      exact ih (parseStep st l)

/-- C10: the parser is total by construction (it is a plain function); every
per-line failure is handled by skipping, so the result equals the fold over
the parseable lines only, and empty text, blank lines, a line with no space,
and a line with a non-integer count all yield the empty table and total 0. -/
theorem parser_total_skips (content : String) :
    parse_file content =
        List.foldl parseStep ([], 0)
          ((pyLines content).filter (fun l => (parseLineO l).isSome)) ∧
      parse_file "" = ([], 0) ∧
      parse_file "\n \n" = ([], 0) ∧
      parse_file "onlystacknocount" = ([], 0) ∧
      parse_file "a;b xyz" = ([], 0) := by
  refine ⟨foldl_filter_parseStep (pyLines content) ([], 0), ?_, ?_, ?_, ?_⟩
  · decide
  · decide
  · decide
  · decide

/-- A signature appears in a category list. -/
def stackIn (li : List StackInfo) (s : String) : Prop := ∃ i ∈ li, i.stack = s

/-- The list of records of one category of a diff result. -/
def catList (r : DiffResult) : DiffCat → List StackInfo
  | .added => r.added
  | .removed => r.removed
  | .increased => r.increased
  | .decreased => r.decreased
  | .unchanged => r.unchanged

theorem mem_sortInfos {li : List StackInfo} {i : StackInfo} :
    i ∈ sortInfos li ↔ i ∈ li :=
  List.mem_insertionSort infoGe

theorem mkInfo_stack (o n : List (String × Int)) (ot nt : Int) (s : String) :
    (mkInfo o n ot nt s).stack = s := rfl

theorem mkInfo_old (o n : List (String × Int)) (ot nt : Int) (s : String) :
    (mkInfo o n ot nt s).old_count = lookupD o s := rfl

theorem mkInfo_new (o n : List (String × Int)) (ot nt : Int) (s : String) :
    (mkInfo o n ot nt s).new_count = lookupD n s := rfl

theorem stackIn_filtered (o n : List (String × Int)) (ot nt : Int) (c : DiffCat) (s : String) :
    stackIn (((allStackList o n).map (mkInfo o n ot nt)).filter
        (fun i => diffClass i.old_count i.new_count == c)) s ↔
      (s ∈ allStackList o n ∧ diffClass (lookupD o s) (lookupD n s) = c) := by
  unfold stackIn
  constructor
  · rintro ⟨i, hi, hstk⟩
    rw [List.mem_filter] at hi
    obtain ⟨him, hcl⟩ := hi
    rw [List.mem_map] at him
    obtain ⟨s', hs', heq⟩ := him
    subst heq
    rw [mkInfo_stack] at hstk
    subst hstk
    rw [mkInfo_old, mkInfo_new] at hcl
    exact ⟨hs', beq_iff_eq.mp hcl⟩
  · rintro ⟨hmem, hcl⟩
    refine ⟨mkInfo o n ot nt s, List.mem_filter.mpr ⟨List.mem_map_of_mem _ hmem, ?_⟩, rfl⟩
    rw [mkInfo_old, mkInfo_new]
    exact beq_iff_eq.mpr hcl

/-- C1: the five category lists partition the union of the two key sets —
a signature is in category `c` exactly when it occurs in either table and the
classification chain assigns it `c` — and the chain realizes the documented
conditions: added iff `old = 0 < new`, removed iff `old > 0 = new`, otherwise
by the sign of `new - old`, with equal counts unchanged. -/
theorem diff_partition (o n : List (String × Int)) (ot nt : Int) (s : String) :
    (∀ c : DiffCat,
        stackIn (catList (calculate_diff o n ot nt) c) s ↔
          ((s ∈ keyList o ∨ s ∈ keyList n) ∧
            diffClass (lookupD o s) (lookupD n s) = c))
      ∧ ∀ oc nc : Int,
          (diffClass oc nc = .added ↔ oc = 0 ∧ 0 < nc)
          ∧ (diffClass oc nc = .removed ↔ 0 < oc ∧ nc = 0)
          ∧ (diffClass oc nc = .increased ↔
              ¬(oc = 0 ∧ 0 < nc) ∧ ¬(0 < oc ∧ nc = 0) ∧ oc < nc)
          ∧ (diffClass oc nc = .decreased ↔
              ¬(oc = 0 ∧ 0 < nc) ∧ ¬(0 < oc ∧ nc = 0) ∧ nc < oc)
          ∧ (diffClass oc nc = .unchanged ↔
              ¬(oc = 0 ∧ 0 < nc) ∧ ¬(0 < oc ∧ nc = 0) ∧ oc = nc) := by
  constructor
  · intro c
    have hkey : s ∈ allStackList o n ↔ (s ∈ keyList o ∨ s ∈ keyList n) := by
      simp [allStackList]
    have hsort : ∀ li s', stackIn (sortInfos li) s' ↔ stackIn li s' := by
      intro li s'
      unfold stackIn
      simp [mem_sortInfos]
    cases c <;>
      simp only [calculate_diff, catList] <;>
      (try rw [hsort]) <;>
      rw [stackIn_filtered, hkey]
  · intro oc nc
    unfold diffClass
    refine ⟨?_, ?_, ?_, ?_, ?_⟩ <;>
      split_ifs with h1 h2 h3 h4 <;> simp_all <;> omega

theorem pyRound2_zero : pyRound2 0 = 0 := by
  norm_num [pyRound2, pyRoundEven]

/-- All records of a diff result, in category order. -/
def allRecords (r : DiffResult) : List StackInfo :=
  r.added ++ r.removed ++ r.increased ++ r.decreased ++ r.unchanged

theorem mem_allRecords_mkInfo (o n : List (String × Int)) (ot nt : Int)
    (i : StackInfo) (h : i ∈ allRecords (calculate_diff o n ot nt)) :
    ∃ s ∈ allStackList o n, i = mkInfo o n ot nt s := by
  unfold allRecords at h
  simp only [calculate_diff, List.mem_append] at h
  have hmap : i ∈ (allStackList o n).map (mkInfo o n ot nt) → ∃ s ∈ allStackList o n, i = mkInfo o n ot nt s := by
    intro hm
    rw [List.mem_map] at hm
    obtain ⟨s, hs, heq⟩ := hm
    exact ⟨s, hs, heq.symm⟩
  rcases h with ((((h | h) | h) | h) | h) <;>
    first
      | exact hmap (List.mem_filter.mp (mem_sortInfos.mp h)).1
      | exact hmap (List.mem_filter.mp h).1

theorem mkInfo_old_percent_zero (o n : List (String × Int)) (nt : Int) (s : String) :
    (mkInfo o n 0 nt s).old_percent = 0 := by
  show pyRound2 (if (0 : Int) < 0 then (lookupD o s : ℚ) / ((0 : Int) : ℚ) * 100 else 0) = 0
  rw [if_neg (by omega)]
  exact pyRound2_zero

theorem mkInfo_new_percent_zero (o n : List (String × Int)) (ot : Int) (s : String) :
    (mkInfo o n ot 0 s).new_percent = 0 := by
  show pyRound2 (if (0 : Int) < 0 then (lookupD n s : ℚ) / ((0 : Int) : ℚ) * 100 else 0) = 0
  rw [if_neg (by omega)]
  exact pyRound2_zero

/-- C6: the percentages are guarded against zero totals — when the old total
is 0 every record's `old_percent` and the summary's `total_change_percent`
are 0 (not an error), and when the new total is 0 every record's
`new_percent` is 0. -/
theorem zero_total_zero_percent (o n : List (String × Int)) (ot nt : Int) :
    (ot = 0 →
        (calculate_diff o n ot nt).summary.total_change_percent = 0 ∧
          ∀ i ∈ allRecords (calculate_diff o n ot nt), i.old_percent = 0)
      ∧ (nt = 0 → ∀ i ∈ allRecords (calculate_diff o n ot nt), i.new_percent = 0) := by
  constructor
  · intro h0
    subst h0
    constructor
    · show (if (0 : Int) < 0 then ((nt : ℚ) - ((0 : Int) : ℚ)) / ((0 : Int) : ℚ) * 100 else 0) = 0
      rw [if_neg (by omega)]
    · intro i hi
      obtain ⟨s, -, heq⟩ := mem_allRecords_mkInfo o n 0 nt i hi
      rw [heq, mkInfo_old_percent_zero]
  · intro h0
    subst h0
    intro i hi
    obtain ⟨s, -, heq⟩ := mem_allRecords_mkInfo o n ot 0 i hi
    rw [heq, mkInfo_new_percent_zero]

theorem zero_total_zero_percent_witness :
    ((0 : Int) = 0) ∧
      ((calculate_diff [("a", 1)] [("b", 2)] 0 2).summary.total_change_percent = 0 ∧
        ∀ i ∈ allRecords (calculate_diff [("a", 1)] [("b", 2)] 0 2), i.old_percent = 0) :=
  ⟨rfl, (zero_total_zero_percent [("a", 1)] [("b", 2)] 0 2).1 rfl⟩

theorem sortInfos_sorted (li : List StackInfo) : List.Sorted infoGe (sortInfos li) :=
  List.sorted_insertionSort infoGe li

/-- C7: each of the four changed category lists is sorted in descending order
of the absolute percentage-point delta: for adjacent records `r1` before
`r2`, `|r2.diff_percent| ≤ |r1.diff_percent|` (the unchanged list is not
sorted this way by the code and is not claimed to be). -/
theorem changed_categories_sorted (o n : List (String × Int)) (ot nt : Int) :
    List.Chain' (fun r1 r2 : StackInfo => |r2.diff_percent| ≤ |r1.diff_percent|)
        (calculate_diff o n ot nt).added
      ∧ List.Chain' (fun r1 r2 : StackInfo => |r2.diff_percent| ≤ |r1.diff_percent|)
        (calculate_diff o n ot nt).removed
      ∧ List.Chain' (fun r1 r2 : StackInfo => |r2.diff_percent| ≤ |r1.diff_percent|)
        (calculate_diff o n ot nt).increased
      ∧ List.Chain' (fun r1 r2 : StackInfo => |r2.diff_percent| ≤ |r1.diff_percent|)
        (calculate_diff o n ot nt).decreased := by
  refine ⟨?_, ?_, ?_, ?_⟩ <;>
    · show List.Chain' infoGe (sortInfos _)
      exact (sortInfos_sorted _).chain'

theorem mem_setInsert (l : List String) (x m : String) :
    m ∈ setInsert l x ↔ m ∈ l ∨ m = x := by
  unfold setInsert
  by_cases h : x ∈ l
  · rw [if_pos h]
    constructor
    · exact Or.inl
    · intro hm
      rcases hm with hm | hm
      · exact hm
      · exact hm ▸ h
  · rw [if_neg h]
    simp

theorem mem_methodSet_gen (recs : List StackInfo) :
    ∀ (acc : List String) (m : String),
      m ∈ recs.foldl (fun acc i => setInsert acc (leafOf i.stack)) acc ↔
        m ∈ acc ∨ ∃ i ∈ recs, m = leafOf i.stack := by
  induction recs with
  | nil => intro acc m; simp
  | cons r rs ih =>
    intro acc m
    simp only [List.foldl_cons]
    rw [ih, mem_setInsert]
    constructor
    · rintro ((h | h) | ⟨i, hi, h⟩)
      · exact Or.inl h
      · exact Or.inr ⟨r, List.mem_cons_self _ _, h⟩
      · exact Or.inr ⟨i, List.mem_cons_of_mem _ hi, h⟩
    · rintro (h | ⟨i, hi, h⟩)
      · exact Or.inl (Or.inl h)
      · rw [List.mem_cons] at hi
        rcases hi with hi | hi
        · exact Or.inl (Or.inr (hi ▸ h))
        · exact Or.inr ⟨i, hi, h⟩

theorem mem_methodSet (recs : List StackInfo) (m : String) :
    m ∈ methodSet recs ↔ ∃ i ∈ recs, m = leafOf i.stack := by
  unfold methodSet
  rw [mem_methodSet_gen]
  simp

/-- C9: the correlation report's common-method list has at most 10 entries,
each of which is the leaf identifier (last `;`-component, then last
`/`-component) of some added record and of some removed record; at most 5
paired examples are built, and each example pairs the heads of the filtered
added and removed lists — the first records whose signatures contain the
method as a substring. -/
theorem debug_stacks_shape (dr : DiffResult) :
    (debug_stacks dr).common_methods.length ≤ 10
      ∧ (∀ m ∈ (debug_stacks dr).common_methods,
          (∃ i ∈ dr.added, m = leafOf i.stack) ∧ ∃ i ∈ dr.removed, m = leafOf i.stack)
      ∧ (debug_stacks dr).examples.length ≤ 5
      ∧ ∀ e ∈ (debug_stacks dr).examples,
          (∃ a t, dr.added.filter (fun i => containsSub e.method.data i.stack.data) = a :: t
              ∧ e.added_example = a.stack)
            ∧ ∃ b t, dr.removed.filter (fun i => containsSub e.method.data i.stack.data) = b :: t
              ∧ e.removed_example = b.stack := by
  refine ⟨?_, ?_, ?_, ?_⟩
  · show (List.take 10 _).length ≤ 10
    simp [List.length_take]
  · intro m hm
    have hc : m ∈ (methodSet dr.added).filter (fun m => decide (m ∈ methodSet dr.removed)) :=
      List.mem_of_mem_take hm
    rw [List.mem_filter] at hc
    obtain ⟨hA, hB⟩ := hc
    exact ⟨(mem_methodSet dr.added m).mp hA,
      (mem_methodSet dr.removed m).mp (of_decide_eq_true hB)⟩
  · show (List.filterMap _ (List.take 5 _)).length ≤ 5
    calc (List.filterMap _ (List.take 5 _)).length
        ≤ (List.take 5 ((methodSet dr.added).filter _)).length :=
          List.length_filterMap_le _ _
      _ ≤ 5 := by simp [List.length_take]
  · intro e he
    have hfm : ∃ m ∈ List.take 5 ((methodSet dr.added).filter
          (fun m => decide (m ∈ methodSet dr.removed))),
        mkExample dr.added dr.removed m = some e := List.mem_filterMap.mp he
    obtain ⟨m, -, hmk⟩ := hfm
    unfold mkExample at hmk
    cases hfa : dr.added.filter (fun i => containsSub m.data i.stack.data) with
    | nil =>
      rw [hfa] at hmk
      cases hfb : dr.removed.filter (fun i => containsSub m.data i.stack.data) <;>
        · rw [hfb] at hmk
          exact Option.noConfusion hmk
    | cons a ta =>
      cases hfb : dr.removed.filter (fun i => containsSub m.data i.stack.data) with
      | nil =>
        rw [hfa, hfb] at hmk
        exact Option.noConfusion hmk
      | cons b tb =>
        rw [hfa, hfb] at hmk
        have he2 : (⟨m, a.stack, b.stack⟩ : CorrExample) = e := Option.some.inj hmk
        have hm : e.method = m := by rw [← he2]
        have ha : e.added_example = a.stack := by rw [← he2]
        have hb : e.removed_example = b.stack := by rw [← he2]
        rw [hm]
        exact ⟨⟨a, ta, hfa, ha⟩, ⟨b, tb, hfb, hb⟩⟩

theorem debug_stacks_shape_witness :
    (debug_stacks (calculate_diff [("p;x/m", 10), ("q;n", 5)]
        [("r;m", 3), ("s;n", 4)] 15 7)).examples.length ≤ 5 :=
  (debug_stacks_shape (calculate_diff [("p;x/m", 10), ("q;n", 5)]
      [("r;m", 3), ("s;n", 4)] 15 7)).2.2.1

/-- Characters on which every normalization step is inert: no digits, no
underscore, bracket, dollar or dash, and no whitespace. -/
def plainChar (c : Char) : Bool :=
  !(c.isDigit || c == '_' || c == '[' || c == '$' || c == '-' || isPySpace c)

theorem plain_no_space {c : Char} (h : plainChar c = true) : isPySpace c = false := by
  unfold plainChar at h
  cases hs : isPySpace c
  · rfl
  · rw [hs] at h
    simp at h

theorem plain_no_digit {c : Char} (h : plainChar c = true) : c.isDigit = false := by
  unfold plainChar at h
  cases hs : c.isDigit
  · rfl
  · rw [hs] at h
    simp at h

theorem plain_ne_dash {c : Char} (h : plainChar c = true) : c ≠ '-' := by
  intro he
  subst he
  exact absurd h (by decide)

theorem plain_ne_bracket {c : Char} (h : plainChar c = true) : c ≠ '[' := by
  intro he
  subst he
  exact absurd h (by decide)

theorem plain_ne_underscore {c : Char} (h : plainChar c = true) : c ≠ '_' := by
  intro he
  subst he
  exact absurd h (by decide)

theorem plain_ne_dollar {c : Char} (h : plainChar c = true) : c ≠ '$' := by
  intro he
  subst he
  exact absurd h (by decide)

theorem dropWhile_eq_self_of (p : Char → Bool) (l : List Char)
    (h : ∀ c ∈ l, p c = false) : l.dropWhile p = l := by
  cases l with
  | nil => rfl
  | cons c cs =>
    rw [List.dropWhile_cons, h c (List.mem_cons_self _ _)]
    simp

theorem pyStrip_eq_self (l : List Char) (h : ∀ c ∈ l, isPySpace c = false) :
    pyStrip l = l := by
  unfold pyStrip
  rw [dropWhile_eq_self_of _ l h]
  rw [dropWhile_eq_self_of _ l.reverse (fun c hc => h c (List.mem_reverse.mp hc))]
  exact List.reverse_reverse l

theorem stripAnn_eq_self (l : List Char) (h : ∀ c ∈ l, plainChar c = true) :
    stripAnn l = l := by
  unfold stripAnn
  rw [dropWhile_eq_self_of _ l.reverse
    (fun c hc => plain_no_space (h c (List.mem_reverse.mp hc)))]
  split
  · rename_i a rest heq
    exfalso
    have hb : '[' ∈ l.reverse := by
      rw [heq]
      simp
    exact plain_ne_bracket (h '[' (List.mem_reverse.mp hb)) rfl
  · rfl

theorem stripUnd_eq_self (l : List Char) (h : ∀ c ∈ l, plainChar c = true) :
    stripUnd l = l := by
  unfold stripUnd
  rw [dropWhile_eq_self_of _ l.reverse
    (fun c hc => plain_no_space (h c (List.mem_reverse.mp hc)))]
  split
  · rename_i rest heq
    exfalso
    have hb : '_' ∈ l.reverse := by
      rw [heq]
      simp
    exact plain_ne_underscore (h '_' (List.mem_reverse.mp hb)) rfl
  · rfl

theorem gsubF_eq_self (m : List Char → Option (List Char × Nat)) :
    ∀ (fuel : Nat) (l : List Char),
      (∀ c cs, (∃ u, l = u ++ c :: cs) → m (c :: cs) = none) →
      gsubF m fuel l = l := by
  intro fuel
  induction fuel with
  | zero =>
    intro l _
    cases l <;> rfl
  | succ f ih =>
    intro l h
    cases l with
    | nil => rfl
    | cons c cs =>
      have h2 : ∀ c' cs', (∃ u, cs = u ++ c' :: cs') → m (c' :: cs') = none := by
        rintro c' cs' ⟨u, hu⟩
        exact h c' cs' ⟨c :: u, by rw [hu, List.cons_append]⟩
      simp only [gsubF, h c cs ⟨[], rfl⟩]
      exact congrArg (c :: ·) (ih cs h2)

/-- A matcher that fails on every all-plain string makes `gsub` the
identity on all-plain strings. -/
theorem gsub_eq_self_plain (m : List Char → Option (List Char × Nat))
    (hm : ∀ l', (∀ c ∈ l', plainChar c = true) → m l' = none)
    (p : List Char) (h : ∀ c ∈ p, plainChar c = true) : gsub m p = p := by
  apply gsubF_eq_self
  rintro c cs ⟨u, hu⟩
  exact hm (c :: cs) (fun c' hc' => h c' (by rw [hu]; exact List.mem_append_right u hc'))

theorem isPrefixOf_append : ∀ p l : List Char, p.isPrefixOf l = true → ∃ t, l = p ++ t := by
  intro p
  induction p with
  | nil =>
    intro l _
    exact ⟨l, rfl⟩
  | cons c cs ih =>
    intro l hp
    cases l with
    | nil => exact absurd hp (by simp [List.isPrefixOf])
    | cons d ds =>
      simp only [List.isPrefixOf, Bool.and_eq_true, beq_iff_eq] at hp
      obtain ⟨hcd, hrest⟩ := hp
      obtain ⟨t, ht⟩ := ih ds hrest
      exact ⟨t, by rw [hcd, ht, List.cons_append]⟩

theorem snappyTry_none (l : List Char) (h : ∀ c ∈ l, plainChar c = true) :
    snappyTry l = none := by
  have hp : ("snappy-").data.isPrefixOf l = false := by
    cases hp : ("snappy-").data.isPrefixOf l
    · rfl
    · exfalso
      obtain ⟨t, ht⟩ := isPrefixOf_append _ l hp
      have hd : '-' ∈ l := by
        rw [ht]
        exact List.mem_append_left t (by decide)
      exact plain_ne_dash (h '-' hd) rfl
  simp [snappyTry, hp]

theorem libTry_none (l : List Char) (h : ∀ c ∈ l, plainChar c = true) :
    libTry l = none := by
  unfold libTry
  cases hp : ("lib").data.isPrefixOf l with
  | false => simp [hp]
  | true =>
    simp only [hp, if_true]
    by_cases hw : ((l.drop 3).takeWhile isWordChar).length = 0
    · simp [hw]
    · simp only [if_neg hw]
      split
      · rename_i rest1 heq
        exfalso
        have h1 : '-' ∈ (l.drop 3).drop ((l.drop 3).takeWhile isWordChar).length := by
          rw [heq]
          exact List.mem_cons_self _ _
        have h2 : '-' ∈ l.drop 3 := (List.drop_sublist _ _).subset h1
        have h3 : '-' ∈ l := (List.drop_sublist _ _).subset h2
        exact plain_ne_dash (h '-' h3) rfl
      · rfl

theorem dollar2Try_none (l : List Char) (h : ∀ c ∈ l, plainChar c = true) :
    dollar2Try l = none := by
  unfold dollar2Try
  split
  · rename_i rest
    exfalso
    exact plain_ne_dollar (h '$' (List.mem_cons_self _ _)) rfl
  · rfl

theorem dollar1Try_none (l : List Char) (h : ∀ c ∈ l, plainChar c = true) :
    dollar1Try l = none := by
  unfold dollar1Try
  split
  · rename_i rest
    exfalso
    exact plain_ne_dollar (h '$' (List.mem_cons_self _ _)) rfl
  · rfl

theorem digitTry_none (l : List Char) (h : ∀ c ∈ l, plainChar c = true) :
    digitTry l = none := by
  unfold digitTry
  have hk : (l.takeWhile Char.isDigit).length = 0 := by
    cases l with
    | nil => rfl
    | cons c cs =>
      rw [List.takeWhile_cons, plain_no_digit (h c (List.mem_cons_self _ _))]
      simp
  simp [hk]

theorem normFrame_eq_self (p : List Char) (h : ∀ c ∈ p, plainChar c = true) :
    normFrame p = p := by
  simp only [normFrame]
  rw [stripAnn_eq_self p h, stripUnd_eq_self p h,
    pyStrip_eq_self p (fun c hc => plain_no_space (h c hc))]
  have hif : (if containsSub (("libsnappyjava.so").data) p
       then gsub snappyTry p else p) = p := by
    cases containsSub (("libsnappyjava.so").data) p
    · rfl
    · simpa using gsub_eq_self_plain snappyTry snappyTry_none p h
  rw [hif, gsub_eq_self_plain libTry libTry_none p h,
    gsub_eq_self_plain dollar2Try dollar2Try_none p h,
    gsub_eq_self_plain dollar1Try dollar1Try_none p h,
    gsub_eq_self_plain digitTry digitTry_none p h]

theorem splitOnChar_ne_nil (sep : Char) (l : List Char) : splitOnChar sep l ≠ [] := by
  cases l with
  | nil => simp [splitOnChar]
  | cons c cs =>
    simp only [splitOnChar]
    cases splitOnChar sep cs with
    | nil => simp
    | cons r rs =>
      by_cases hd : c = sep
      · simp [hd]
      · simp [hd]

theorem splitOnChar_mem (sep : Char) :
    ∀ l p : List Char, p ∈ splitOnChar sep l → ∀ c ∈ p, c ∈ l := by
  intro l
  induction l with
  | nil =>
    intro p hp c hc
    simp [splitOnChar] at hp
    subst hp
    simp at hc
  | cons d ds ih =>
    intro p hp c hc
    simp only [splitOnChar] at hp
    cases hr : splitOnChar sep ds with
    | nil => exact absurd hr (splitOnChar_ne_nil sep ds)
    | cons r rs =>
      rw [hr] at hp
      dsimp only at hp
      by_cases hd : d = sep
      · rw [if_pos hd] at hp
        rw [List.mem_cons] at hp
        rcases hp with hp | hp
        · subst hp
          simp at hc
        · have := ih p (by rw [hr]; exact hp) c hc
          exact List.mem_cons_of_mem _ this
      · rw [if_neg hd] at hp
        rw [List.mem_cons] at hp
        rcases hp with hp | hp
        · subst hp
          rw [List.mem_cons] at hc
          rcases hc with hc | hc
          · subst hc
            exact List.mem_cons_self _ _
          · have := ih r (by rw [hr]; exact List.mem_cons_self _ _) c hc
            exact List.mem_cons_of_mem _ this
        · have := ih p (by rw [hr]; exact List.mem_cons_of_mem _ hp) c hc
          exact List.mem_cons_of_mem _ this

theorem joinSep_splitOnChar (sep : Char) :
    ∀ l : List Char, joinSep sep (splitOnChar sep l) = l := by
  intro l
  induction l with
  | nil => rfl
  | cons c cs ih =>
    simp only [splitOnChar]
    cases hr : splitOnChar sep cs with
    | nil => exact absurd hr (splitOnChar_ne_nil sep cs)
    | cons r rs =>
      rw [hr] at ih
      dsimp only
      by_cases hd : c = sep
      · rw [if_pos hd]
        show sep :: joinSep sep (r :: rs) = c :: cs
        rw [ih, hd]
      · rw [if_neg hd]
        cases rs with
        | nil =>
          show c :: r = c :: cs
          rw [show joinSep sep [r] = r from rfl] at ih
          rw [ih]
        | cons q qs =>
          show (c :: r) ++ sep :: joinSep sep (q :: qs) = c :: cs
          rw [show joinSep sep (r :: q :: qs) = r ++ sep :: joinSep sep (q :: qs) from rfl] at ih
          rw [List.cons_append, ih]

theorem normalize_id_of_plain (f : String) (h : ∀ c ∈ f.data, plainChar c = true) :
    normalize_stack_trace f = f := by
  unfold normalize_stack_trace
  have hmap : (splitOnChar ';' f.data).map normFrame = splitOnChar ';' f.data := by
    have heach : ∀ p ∈ splitOnChar ';' f.data, normFrame p = p := fun p hp =>
      normFrame_eq_self p (fun c hc => h c (splitOnChar_mem ';' f.data p hp c hc))
    calc (splitOnChar ';' f.data).map normFrame
        = (splitOnChar ';' f.data).map id := List.map_congr_left heach
      _ = splitOnChar ';' f.data := List.map_id _
  rw [hmap, joinSep_splitOnChar]

/-- C3 (amended): normalization is not idempotent in general (see the
counterexample), but it is idempotent on every frame made only of characters
on which all rewriting steps are inert — no digits, no `_`, `[`, `$`, `-`,
and no whitespace — since on such frames it is the identity. -/
theorem normalize_idempotent_on_plain (f : String)
    (h : ∀ c ∈ f.data, plainChar c = true) :
    normalize_stack_trace (normalize_stack_trace f) = normalize_stack_trace f := by
  rw [normalize_id_of_plain f h, normalize_id_of_plain f h]

theorem normalize_idempotent_witness :
    (∀ c ∈ ("com.foo.Bar.baz;qux").data, plainChar c = true) ∧
      normalize_stack_trace (normalize_stack_trace "com.foo.Bar.baz;qux") =
        normalize_stack_trace "com.foo.Bar.baz;qux" :=
  ⟨by decide, normalize_idempotent_on_plain "com.foo.Bar.baz;qux" (by decide)⟩
